import Mathlib

/-!
Shallow embedding of `src/solution.py` (a diagonal-Sudoku solver).

An assignment (the Python dict `{'A1': '123456789', ...}`) is modelled as a
`List (List Char)` of the 81 candidate strings, indexed in the dict's key
order `A1, A2, ..., I9` (row-major); cell `r c` is index `9*r + c`.  The
Python dict preserves insertion order and the solver never adds or removes
keys, so iteration over `values.items()` is iteration over the indices
`0, ..., length-1` in order, reading each value at its turn.
-/

set_option maxRecDepth 10000

namespace Sudoku

/-- An assignment: the candidate string of every cell, in key order. -/
abbrev Values := List (List Char)

/-- The digit characters, in the order the source iterates them. -/
def digits : List Char := ['1', '2', '3', '4', '5', '6', '7', '8', '9']

/-- `row_units = [cross(r, cols) for r in rows]` (solution.py line 5).
Modelled from the spec for the collaborator data: `cross`, `rows` and
`cols` live in `utils.py`, which is not part of `src/`; per the spec's
Board Model, cells are the 81 positions row letter x column digit, here
the row-major indices `9 * r + c`. -/
def row_units : List (List Nat) :=
  (List.range 9).map (fun r => (List.range 9).map (fun c => 9 * r + c))

/-- `column_units = [cross(rows, c) for c in cols]` (solution.py line 6). -/
def column_units : List (List Nat) :=
  (List.range 9).map (fun c => (List.range 9).map (fun r => 9 * r + c))

/-- `square_units` (solution.py line 7): the nine 3 times 3 boxes, the row
band outer, the column band inner, cells of a box in row-major order. -/
def square_units : List (List Nat) :=
  (List.range 3).flatMap (fun rs => (List.range 3).map (fun cs =>
    (List.range 3).flatMap (fun i => (List.range 3).map (fun j =>
      9 * (3 * rs + i) + (3 * cs + j)))))

/-- `diagonal_units` (solution.py line 8): the two main diagonals. -/
def diagonal_units : List (List Nat) :=
  [(List.range 9).map (fun i => 9 * i + i), (List.range 9).map (fun i => 9 * i + (8 - i))]

/-- `unitlist = row_units + column_units + square_units + diagonal_units`
(solution.py line 10). -/
def unitlist : List (List Nat) :=
  row_units ++ column_units ++ square_units ++ diagonal_units

/-- `peers[k]` (solution.py line 15).  Modelled from the spec:
`extract_peers` lives in `utils.py`, which is not part of `src/`; spec
section 3: `Peers: for a Cell, the set of all other Cells appearing in
any Unit with it (deduplicated)`.  Being a set, its iteration order is
unspecified; every use below removes one fixed digit from each peer, for
which any order and multiplicity give the same result. -/
def peers (k : Nat) : List Nat :=
  (((unitlist.filter (fun u => decide (k ∈ u))).flatten).filter (fun c => decide (c ≠ k))).dedup

/-- `s.replace(d, '')` for a single digit character: remove every occurrence. -/
def removeDigit (s : List Char) (d : Char) : List Char :=
  s.filter (fun c => decide (c ≠ d))

/-- `values[peer] = values[peer].replace(v, \'\')` (solution.py line 81):
remove digit `d` from the candidate string of cell `p`. -/
def clearDigit (d : Char) (w2 : Values) (p : Nat) : Values :=
  w2.set p (removeDigit (w2.getD p []) d)

/-- One step of the `eliminate` scan (solution.py lines 77-81): if cell `k`
currently holds a single digit, remove that digit from all peers of `k`. -/
def eliminateStep (w : Values) (k : Nat) : Values :=
  match w.getD k [] with
  | [d] => (peers k).foldl (clearDigit d) w
  | _ => w

/-- `eliminate` (solution.py lines 61-82): one ordered scan of the cells,
each singleton cell clearing its digit from its peers in the shared state. -/
def eliminate (v : Values) : Values :=
  (List.range v.length).foldl eliminateStep v

/-- One `(unit, digit)` step of `only_choice` (solution.py lines 106-110):
if exactly one box of the unit still admits the digit, assign it there. -/
def onlyChoiceStep (w : Values) (u : List Nat) (d : Char) : Values :=
  match u.filter (fun b => decide (d ∈ w.getD b [])) with
  | [b] => w.set b [d]
  | _ => w

/-- `only_choice` (solution.py lines 85-111): scan all units and digits. -/
def only_choice (v : Values) : Values :=
  unitlist.foldl (fun w u => digits.foldl (fun w2 d => onlyChoiceStep w2 u d) w) v

/-- The twin-processing block of `naked_twins` (solution.py lines 55-57):
remove every digit of `dd` from every cell of the unit other than the two
twin cells `b1`, `b2`. -/
def processPair (w : Values) (u : List Nat) (b1 b2 : Nat) (dd : List Char) : Values :=
  (u.filter (fun c => decide (c ≠ b1 ∧ c ≠ b2))).foldl
    (fun w2 c => dd.foldl (fun w3 d => w3.set c (removeDigit (w3.getD c []) d)) w2) w

/-- Per-unit body of `naked_twins` (solution.py lines 46-57): snapshot the
cells with exactly two candidates, then process every `i < j` pair whose
snapshot values coincide. -/
def nakedTwinsUnit (w : Values) (u : List Nat) : Values :=
  let pt := (u.filter (fun b => decide ((w.getD b []).length = 2))).map (fun b => (b, w.getD b []))
  (List.range pt.length).foldl (fun w1 i =>
    (List.range (pt.length - (i + 1))).foldl (fun w2 jo =>
      let ti := pt.getD i (0, [])
      let tj := pt.getD (i + 1 + jo) (0, [])
      if ti.2 = tj.2 then processPair w2 u ti.1 tj.1 ti.2 else w2) w1) w

/-- `naked_twins` (solution.py lines 18-58). -/
def naked_twins (v : Values) : Values :=
  unitlist.foldl nakedTwinsUnit v

/-- `len([box for box in values.keys() if len(values[box]) == 1])`
(solution.py lines 131, 149): the number of solved cells. -/
def solvedCount (v : Values) : Nat :=
  v.countP (fun s => decide (s.length = 1))

/-- `len([box for box in values.keys() if len(values[box]) == 0])`
(solution.py line 153): the number of cells with an empty candidate set. -/
def emptyCount (v : Values) : Nat :=
  v.countP (fun s => decide (s.length = 0))

/-- One iteration of the `reduce_puzzle` loop body (solution.py lines
133-146): the inlined Eliminate strategy followed by the inlined Only
Choice strategy (the inlined code is identical to `eliminate` and
`only_choice` above). -/
def reducePass (v : Values) : Values :=
  only_choice (eliminate v)

/-- The `while not stalled` loop of `reduce_puzzle` (solution.py lines
128-155), indexed by fuel.  `solved_values_before` is `solvedCount v` and
`solved_values_after` is `solvedCount (reducePass v)`; the empty-cell check
(line 153) runs inside the loop body, so `False` is returned even when the
pass that emptied a cell was also the stalling pass.  A continuing
iteration strictly increases the solved-cell count, so `v.length + 1`
units of fuel always suffice (the loop result is proved independent of
the fuel above this bound) and the fuel case `0 => none` is unreachable
for the fuel used by `reduce_puzzle`. -/
def reduceLoop : Nat → Values → Option Values
  | 0, _ => none
  | fuel + 1, v =>
    if emptyCount (reducePass v) ≠ 0 then none
    else if solvedCount v = solvedCount (reducePass v) then some (reducePass v)
    else reduceLoop fuel (reducePass v)

/-- `reduce_puzzle` (solution.py lines 114-155).  `none` is the Python
return value `False`. -/
def reduce_puzzle (v : Values) : Option Values :=
  reduceLoop (v.length + 1) v

/-- One step of the single linear scan of `search` (solution.py lines
188-195): state is `(solved_values, min_length, min_box)`. -/
def scanStep (r : Values) (st : Nat × Nat × Option Nat) (k : Nat) : Nat × Nat × Option Nat :=
  if (r.getD k []).length = 1 then (st.1 + 1, st.2)
  else if (r.getD k []).length < st.2.1 then (st.1, (r.getD k []).length, some k)
  else st

/-- The single linear scan of `search` (solution.py lines 183-195), with the
initial state `min_length = 10`, `min_box = None`, `solved_values = 0`. -/
def branchScan (r : Values) : Nat × Nat × Option Nat :=
  (List.range r.length).foldl (scanStep r) (0, 10, none)

/-- The `for choice in choices` loop of `search` (solution.py lines
203-211): try each candidate of cell `b` in order on an independent copy,
returning the first recursive success, `none` if all branches fail. -/
def tryChoices (go : Values → Option Values) (r : Values) (b : Nat) : List Char → Option Values
  | [] => none
  | c :: rest =>
    match go (r.set b [c]) with
    | some sol => some sol
    | none => tryChoices go r b rest

/-- The body of one `search` call (solution.py lines 177-214), with `go`
standing for the recursive call.  Notes on the embedding: the Python
`if not values` truthiness test on the result of `reduce_puzzle`
distinguishes `False` from a (always non-empty, 81-key) dict, i.e. the
`Option` match below; `values[min_box]` with `min_box = None` raises
`KeyError` in Python and is modelled as `none` (that branch is proved
unreachable for well-formed 81-cell assignments below);
`if sol:` is true exactly for a solved (non-empty) dict, i.e. `some sol`. -/
def searchBody (go : Values → Option Values) (v : Values) : Option Values :=
  match reduce_puzzle v with
  | none => none
  | some r =>
    if (branchScan r).1 = 81 then some r
    else
      match (branchScan r).2.2 with
      | none => none
      | some b => tryChoices go r b (r.getD b [])

/-- `search` (solution.py lines 158-214), indexed by recursion-depth fuel. -/
def searchLoop (fuel : Nat) : Values → Option Values :=
  Nat.rec (fun _ => none) (fun _ go v => searchBody go v) fuel

/-- `search` at the fuel bound 82: each recursive call strictly increases
the solved-cell count of an 81-cell assignment, so the recursion depth of
the Python original is at most 82 and the fuel never runs out on real
inputs. -/
def search (v : Values) : Option Values :=
  searchLoop 82 v

/-- Modelled from the spec: `grid2values` lives in `utils.py`, which is not
part of `src/`.  Spec section 6: the collaborator turns the 81-character
grid string into the assignment whose candidate sets are `initialized to
the single given digit or to all 9 digits for unknown cells`. -/
def grid2values (g : String) : Values :=
  g.data.map (fun c => if c ∈ digits then [c] else digits)

/-- `solve` (solution.py lines 217-234). -/
def solve (g : String) : Option Values :=
  search (grid2values g)

/-- A well-formed candidate string: no repeated characters, all digits. -/
def CellOk (s : List Char) : Prop :=
  s.Nodup ∧ ∀ c ∈ s, c ∈ digits

/-- A well-formed assignment: every candidate string is well-formed.  This
holds for `grid2values` output and is preserved by every operation. -/
def ValuesOk (v : Values) : Prop :=
  ∀ s ∈ v, CellOk s

instance : DecidablePred CellOk := fun s =>
  decidable_of_iff (s.Nodup ∧ ∀ c ∈ s, c ∈ digits) Iff.rfl

instance : DecidablePred ValuesOk := fun v =>
  decidable_of_iff (∀ s ∈ v, CellOk s) Iff.rfl

/-- The digit of every solved cell of `u` occurs exactly once among the
cells' candidate strings of the unit: the success criterion of spec
section 8 for one unit. -/
def UnitSolvedOk (w : Values) (u : List Nat) : Prop :=
  ∀ d ∈ digits, (u.map (fun c => w.getD c [])).countP (fun s => decide (s = [d])) = 1

instance : ∀ w u, Decidable (UnitSolvedOk w u) := fun w u =>
  decidable_of_iff
    (∀ d ∈ digits, (u.map (fun c => w.getD c [])).countP (fun s => decide (s = [d])) = 1) Iff.rfl

end Sudoku

namespace Sudoku

/-! ### Generic list facts -/

theorem foldl_inv {α β : Type} (P : α → Prop) (f : α → β → α) :
    ∀ (l : List β) (a : α), P a → (∀ x b, b ∈ l → P x → P (f x b)) → P (l.foldl f a)
  | [], _, ha, _ => ha
  | b :: l, a, ha, hstep =>
    foldl_inv P f l (f a b) (hstep a b (List.mem_cons_self b l) ha)
      (fun x c hc hx => hstep x c (List.mem_cons_of_mem b hc) hx)

theorem foldl_fixed {α β : Type} (f : α → β → α) :
    ∀ (l : List β) (a : α), (∀ b ∈ l, f a b = a) → l.foldl f a = a
  | [], _, _ => rfl
  | b :: l, a, h => by
    have hb : f a b = a := h b (List.mem_cons_self b l)
    simp only [List.foldl_cons, hb]
    exact foldl_fixed f l a (fun c hc => h c (List.mem_cons_of_mem b hc))

theorem set_oob {α : Type} : ∀ (l : List α) (i : Nat) (a : α), l.length ≤ i → l.set i a = l
  | [], _, _, _ => rfl
  | _ :: _, 0, _, h => absurd h (by simp)
  | x :: l, i + 1, a, h => by
    simp only [List.set_cons_succ, List.cons.injEq, true_and]
    exact set_oob l i a (by simpa using h)

theorem getD_set_self {α : Type} :
    ∀ (l : List α) (i : Nat) (a d : α), i < l.length → (l.set i a).getD i d = a
  | [], i, _, _, h => absurd h (by simp)
  | _ :: _, 0, _, _, _ => rfl
  | x :: l, i + 1, a, d, h => by
    simpa using getD_set_self l i a d (by simpa using h)

theorem getD_set_ne {α : Type} :
    ∀ (l : List α) (i j : Nat) (a d : α), i ≠ j → (l.set i a).getD j d = l.getD j d
  | [], _, _, _, _, _ => rfl
  | _ :: _, 0, 0, _, _, h => absurd rfl h
  | _ :: _, 0, _ + 1, _, _, _ => rfl
  | _ :: _, _ + 1, 0, _, _, _ => rfl
  | x :: l, i + 1, j + 1, a, d, h => by
    simpa using getD_set_ne l i j a d (fun hij => h (by omega))

theorem set_getD_self {α : Type} : ∀ (l : List α) (i : Nat) (d : α), l.set i (l.getD i d) = l
  | [], _, _ => rfl
  | _ :: _, 0, _ => rfl
  | x :: l, i + 1, d => by simpa using set_getD_self l i d

theorem getD_mem {α : Type} : ∀ (l : List α) (i : Nat) (d : α), i < l.length → l.getD i d ∈ l
  | [], _, _, h => absurd h (by simp)
  | x :: l, 0, _, _ => List.mem_cons_self x l
  | x :: l, i + 1, d, h =>
    List.mem_cons_of_mem x (getD_mem l i d (by simpa using h))

theorem mem_getD {α : Type} :
    ∀ (l : List α) (a : α) (d : α), a ∈ l → ∃ i, i < l.length ∧ l.getD i d = a := by
  intro l a d h
  induction l with
  | nil => cases h
  | cons x l ih =>
    rcases List.mem_cons.mp h with h | h
    · exact ⟨0, by simp, h.symm⟩
    · obtain ⟨i, hi, hg⟩ := ih h
      exact ⟨i + 1, by simpa using hi, by simpa using hg⟩

theorem countP_getD_mono {α : Type} (p : α → Bool) (d : α) :
    ∀ (v w : List α), w.length = v.length →
      (∀ i, i < v.length → p (v.getD i d) = true → p (w.getD i d) = true) →
      v.countP p ≤ w.countP p
  | [], w, hl, _ => by simp
  | a :: v, [], hl, _ => by simp at hl
  | a :: v, b :: w, hl, h => by
    have h0 : p a = true → p b = true := by simpa using h 0 (by simp)
    have ht : v.countP p ≤ w.countP p :=
      countP_getD_mono p d v w (by simpa using hl)
        (fun i hi hp => by simpa using h (i + 1) (by simpa using hi) (by simpa using hp))
    simp only [List.countP_cons]
    by_cases hpa : p a = true
    · simp [hpa, h0 hpa]; omega
    · simp [hpa]
      split <;> omega

theorem countP_range_getD {α : Type} (p : α → Bool) (d : α) :
    ∀ (v : List α), (List.range v.length).countP (fun k => p (v.getD k d)) = v.countP p := by
  intro v
  induction v with
  | nil => simp
  | cons a v ih =>
    have : (a :: v).length = v.length + 1 := rfl
    rw [this, List.range_succ_eq_map, List.countP_cons, List.countP_map]
    simp only [List.getD_cons_zero, List.countP_cons]
    have : List.countP ((fun k => p ((a :: v).getD k d)) ∘ Nat.succ) (List.range v.length)
        = List.countP (fun k => p (v.getD k d)) (List.range v.length) := by
      apply List.countP_congr
      intro k _
      rfl
    rw [this, ih]

end Sudoku

namespace Sudoku

/-! ### Board facts -/

/-- Every unit has exactly 9 distinct cells, all of them valid indices. -/
theorem unitlist_ok : ∀ u ∈ unitlist, u.length = 9 ∧ u.Nodup ∧ ∀ c ∈ u, c < 81 := by decide

theorem mem_peers_iff (p k : Nat) :
    p ∈ peers k ↔ p ≠ k ∧ ∃ u, u ∈ unitlist ∧ k ∈ u ∧ p ∈ u := by
  simp only [peers, List.mem_dedup, List.mem_filter, List.mem_flatten, decide_eq_true_eq]
  tauto

theorem mem_peers_of_shared_unit {a b : Nat} {u : List Nat}
    (hu : u ∈ unitlist) (ha : a ∈ u) (hb : b ∈ u) (hne : b ≠ a) : b ∈ peers a :=
  (mem_peers_iff b a).mpr ⟨hne, u, hu, ha, hb⟩

/-! ### Narrowing: every strategy only shrinks candidate strings, pointwise -/

/-- `Narrows v w`: `w` has the same cells as `v` and every candidate string
of `w` is a subsequence of the corresponding candidate string of `v`. -/
def Narrows (v w : Values) : Prop :=
  w.length = v.length ∧ ∀ i, (w.getD i []).Sublist (v.getD i [])

theorem Narrows.refl (v : Values) : Narrows v v := ⟨rfl, fun _ => List.Sublist.refl _⟩

theorem Narrows.trans {v w x : Values} (h1 : Narrows v w) (h2 : Narrows w x) : Narrows v x :=
  ⟨h2.1.trans h1.1, fun i => (h2.2 i).trans (h1.2 i)⟩

/-- Setting a cell to a subsequence of its current value narrows. -/
theorem narrows_set_shrink {w : Values} {p : Nat} {s : List Char}
    (hs : s.Sublist (w.getD p [])) : Narrows w (w.set p s) := by
  constructor
  · exact List.length_set w p s
  · intro i
    by_cases hip : p = i
    · subst hip
      by_cases hp : p < w.length
      · rw [getD_set_self w p s [] hp]; exact hs
      · rw [set_oob w p s (by omega)]
    · rw [getD_set_ne w p i s [] hip]

theorem removeDigit_sublist (s : List Char) (d : Char) : (removeDigit s d).Sublist s :=
  List.filter_sublist s

theorem eliminateStep_narrows (w : Values) (k : Nat) : Narrows w (eliminateStep w k) := by
  unfold eliminateStep
  split
  · next d _ =>
    exact foldl_inv (Narrows w) _ (peers k) w (Narrows.refl w) (fun x p _ hx =>
      hx.trans (narrows_set_shrink (removeDigit_sublist _ d)))
  · exact Narrows.refl w

theorem foldl_eliminateStep_narrows (w : Values) (L : List Nat) :
    Narrows w (L.foldl eliminateStep w) :=
  foldl_inv (Narrows w) _ L w (Narrows.refl w)
    (fun x k _ hx => hx.trans (eliminateStep_narrows x k))

theorem eliminate_narrows (v : Values) : Narrows v (eliminate v) :=
  foldl_eliminateStep_narrows v _

theorem onlyChoiceStep_narrows (w : Values) (u : List Nat) (d : Char) :
    Narrows w (onlyChoiceStep w u d) := by
  unfold onlyChoiceStep
  split
  · next b heq =>
    have hb : b ∈ u.filter (fun b => decide (d ∈ w.getD b [])) := by
      rw [heq]; exact List.mem_cons_self b []
    have hd : d ∈ w.getD b [] := by
      have := (List.mem_filter.mp hb).2
      simpa using this
    exact narrows_set_shrink (List.singleton_sublist.mpr hd)
  · exact Narrows.refl w

theorem only_choice_narrows (v : Values) : Narrows v (only_choice v) := by
  unfold only_choice
  exact foldl_inv (Narrows v) _ unitlist v (Narrows.refl v) (fun x u _ hx =>
    hx.trans (foldl_inv (Narrows x) _ digits x (Narrows.refl x) (fun y d _ hy =>
      hy.trans (onlyChoiceStep_narrows y u d))))

theorem processPair_narrows (w : Values) (u : List Nat) (b1 b2 : Nat) (dd : List Char) :
    Narrows w (processPair w u b1 b2 dd) := by
  unfold processPair
  exact foldl_inv (Narrows w) _ _ w (Narrows.refl w) (fun x c _ hx =>
    hx.trans (foldl_inv (Narrows x) _ dd x (Narrows.refl x) (fun y d _ hy =>
      hy.trans (narrows_set_shrink (removeDigit_sublist _ d)))))

theorem nakedTwinsUnit_narrows (w : Values) (u : List Nat) :
    Narrows w (nakedTwinsUnit w u) := by
  unfold nakedTwinsUnit
  exact foldl_inv (Narrows w) _ _ w (Narrows.refl w) (fun x i _ hx =>
    hx.trans (foldl_inv (Narrows x) _ _ x (Narrows.refl x) (fun y jo _ hy => by
      dsimp only
      split
      · exact hy.trans (processPair_narrows y u _ _ _)
      · exact hy)))

theorem naked_twins_narrows (v : Values) : Narrows v (naked_twins v) := by
  unfold naked_twins
  exact foldl_inv (Narrows v) _ unitlist v (Narrows.refl v) (fun x u _ hx =>
    hx.trans (nakedTwinsUnit_narrows x u))

theorem reducePass_narrows (v : Values) : Narrows v (reducePass v) :=
  (eliminate_narrows v).trans (only_choice_narrows (eliminate v))

end Sudoku

namespace Sudoku

/-! ### Well-formedness is preserved by every operation -/

theorem cellOk_sublist {s t : List Char} (h : s.Sublist t) (ht : CellOk t) : CellOk s :=
  ⟨List.Nodup.sublist h ht.1, fun c hc => ht.2 c (h.subset hc)⟩

theorem valuesOk_of_narrows {v w : Values} (hn : Narrows v w) (hv : ValuesOk v) : ValuesOk w := by
  intro s hs
  obtain ⟨i, hi, hgi⟩ := mem_getD w s [] hs
  have hsub := hn.2 i
  rw [hgi] at hsub
  have hiv : i < v.length := by rw [← hn.1]; exact hi
  exact cellOk_sublist hsub (hv _ (getD_mem v i [] hiv))

theorem grid2values_length (g : String) : (grid2values g).length = g.length := by
  unfold grid2values
  rw [List.length_map]
  rfl

theorem valuesOk_grid2values (g : String) : ValuesOk (grid2values g) := by
  intro s hs
  simp only [grid2values, List.mem_map] at hs
  obtain ⟨c, _, rfl⟩ := hs
  by_cases hc : c ∈ digits
  · rw [if_pos hc]
    exact ⟨List.nodup_singleton c, fun x hx => by rw [List.mem_singleton.mp hx]; exact hc⟩
  · rw [if_neg hc]
    exact ⟨by decide, fun x hx => hx⟩

/-! ### Counting facts -/

theorem solvedCount_le_length (v : Values) : solvedCount v ≤ v.length :=
  List.countP_le_length _

theorem emptyCount_eq_zero_iff (v : Values) :
    emptyCount v = 0 ↔ ∀ i, i < v.length → v.getD i [] ≠ [] := by
  unfold emptyCount
  rw [List.countP_eq_zero]
  constructor
  · intro h i hi heq
    have := h _ (getD_mem v i [] hi)
    rw [heq] at this
    simp at this
  · intro h s hs
    obtain ⟨i, hi, rfl⟩ := mem_getD v s [] hs
    simpa using h i hi

theorem solved_preserved_of_narrows {v w : Values} (hn : Narrows v w)
    (hw : emptyCount w = 0) {i : Nat} (hi : i < v.length)
    (h1 : (v.getD i []).length = 1) : (w.getD i []).length = 1 := by
  have hle : (w.getD i []).length ≤ 1 := h1 ▸ (hn.2 i).length_le
  have hne : w.getD i [] ≠ [] := (emptyCount_eq_zero_iff w).mp hw i (by rw [hn.1]; exact hi)
  have hpos : 0 < (w.getD i []).length := List.length_pos.mpr hne
  omega

theorem solvedCount_mono_pass (v : Values) (h : emptyCount (reducePass v) = 0) :
    solvedCount v ≤ solvedCount (reducePass v) := by
  unfold solvedCount
  apply countP_getD_mono _ [] v (reducePass v) (reducePass_narrows v).1
  intro i hi hp
  have h1 : (v.getD i []).length = 1 := by simpa using hp
  simpa using solved_preserved_of_narrows (reducePass_narrows v) h hi h1

/-! ### The reduction loop -/

theorem reduceLoop_zero (v : Values) : reduceLoop 0 v = none := rfl

theorem reduceLoop_succ (f : Nat) (v : Values) :
    reduceLoop (f + 1) v =
      if emptyCount (reducePass v) ≠ 0 then none
      else if solvedCount v = solvedCount (reducePass v) then some (reducePass v)
      else reduceLoop f (reducePass v) := rfl

theorem reduceLoop_some_spec (f : Nat) :
    ∀ (v w : Values), reduceLoop f v = some w →
      emptyCount w = 0 ∧ Narrows v w ∧ ∃ u, w = reducePass u ∧ solvedCount u = solvedCount w := by
  induction f with
  | zero =>
    intro v w h
    rw [reduceLoop_zero] at h
    cases h
  | succ f ih =>
    intro v w h
    rw [reduceLoop_succ] at h
    by_cases he : emptyCount (reducePass v) ≠ 0
    · rw [if_pos he] at h; cases h
    · rw [if_neg he] at h
      push_neg at he
      by_cases hs : solvedCount v = solvedCount (reducePass v)
      · rw [if_pos hs] at h
        have hw : reducePass v = w := Option.some.inj h
        have hn := reducePass_narrows v
        rw [hw] at hn
        exact ⟨(congrArg emptyCount hw.symm).trans he, hn, v, hw.symm,
          hs.trans (congrArg solvedCount hw)⟩
      · rw [if_neg hs] at h
        obtain ⟨h1, h2, h3⟩ := ih (reducePass v) w h
        exact ⟨h1, (reducePass_narrows v).trans h2, h3⟩

theorem reduceLoop_fuel_eq (k : Nat) :
    ∀ (m : Nat) (v : Values), v.length < k + solvedCount v →
      v.length < m + solvedCount v → reduceLoop k v = reduceLoop m v := by
  induction k with
  | zero =>
    intro m v hk _
    exact absurd hk (by have := solvedCount_le_length v; omega)
  | succ k ih =>
    intro m v hk hm
    cases m with
    | zero => exact absurd hm (by have := solvedCount_le_length v; omega)
    | succ m =>
      rw [reduceLoop_succ k v, reduceLoop_succ m v]
      by_cases he : emptyCount (reducePass v) ≠ 0
      · rw [if_pos he, if_pos he]
      · rw [if_neg he, if_neg he]
        by_cases hs : solvedCount v = solvedCount (reducePass v)
        · rw [if_pos hs, if_pos hs]
        · rw [if_neg hs, if_neg hs]
          push_neg at he
          have hmono := solvedCount_mono_pass v he
          have hlen : (reducePass v).length = v.length := (reducePass_narrows v).1
          exact ih m (reducePass v) (by omega) (by omega)

theorem reduceLoop_eq_reduce_puzzle (v : Values) (m : Nat) (hm : v.length + 1 ≤ m) :
    reduceLoop m v = reduce_puzzle v :=
  reduceLoop_fuel_eq m (v.length + 1) v (by omega) (by omega)

theorem reduce_puzzle_none_of_empty (v : Values) (h : emptyCount (reducePass v) ≠ 0) :
    reduce_puzzle v = none := by
  rw [reduce_puzzle, reduceLoop_succ, if_pos h]

theorem reduce_puzzle_some_spec {v w : Values} (h : reduce_puzzle v = some w) :
    emptyCount w = 0 ∧ Narrows v w ∧ ∃ u, w = reducePass u ∧ solvedCount u = solvedCount w :=
  reduceLoop_some_spec _ v w h

end Sudoku

namespace Sudoku

/-! ### What one `eliminate` scan guarantees about a solved cell's peers -/

theorem getD_oob {α : Type} : ∀ (l : List α) (i : Nat) (d : α), l.length ≤ i → l.getD i d = d
  | [], _, _, _ => rfl
  | _ :: _, 0, _, h => absurd h (by simp)
  | _ :: l, i + 1, d, h => by simpa using getD_oob l i d (by simpa using h)

theorem not_mem_removeDigit (s : List Char) (d : Char) : d ∉ removeDigit s d := by
  simp [removeDigit]

theorem removeDigit_eq_self {s : List Char} {d : Char} (h : d ∉ s) : removeDigit s d = s :=
  List.filter_eq_self.mpr (fun c hc => by
    simp only [decide_eq_true_eq]
    rintro rfl
    exact h hc)

theorem not_mem_of_narrows {v w : Values} (hn : Narrows v w) {d : Char} {i : Nat}
    (h : d ∉ v.getD i []) : d ∉ w.getD i [] :=
  fun hm => h ((hn.2 i).subset hm)

theorem clearDigit_narrows (d : Char) (w : Values) (p : Nat) : Narrows w (clearDigit d w p) :=
  narrows_set_shrink (removeDigit_sublist _ d)

theorem clearFold_narrows (d : Char) (ps : List Nat) (u : Values) :
    Narrows u (ps.foldl (clearDigit d) u) :=
  foldl_inv (Narrows u) _ ps u (Narrows.refl u)
    (fun x p _ hx => hx.trans (clearDigit_narrows d x p))

theorem clearDigit_not_mem (d : Char) (w : Values) (p : Nat) :
    d ∉ (clearDigit d w p).getD p [] := by
  by_cases hp : p < w.length
  · rw [clearDigit, getD_set_self _ _ _ _ hp]
    exact not_mem_removeDigit _ d
  · rw [clearDigit, set_oob _ _ _ (by omega), getD_oob _ _ _ (by omega)]
    exact List.not_mem_nil d

theorem clearFold_not_mem (d : Char) :
    ∀ (ps : List Nat) (u : Values) (p : Nat), p ∈ ps →
      d ∉ (ps.foldl (clearDigit d) u).getD p [] := by
  intro ps
  induction ps with
  | nil => intro u p hp; cases hp
  | cons q ps ih =>
    intro u p hp
    rw [List.foldl_cons]
    rcases List.mem_cons.mp hp with rfl | hp
    · exact not_mem_of_narrows (clearFold_narrows d ps _) (clearDigit_not_mem d u p)
    · exact ih _ p hp

theorem sublist_singleton_eq {s : List Char} {d : Char}
    (h1 : s.Sublist [d]) (h2 : [d].Sublist s) : s = [d] := by
  have ha := h1.length_le
  have hb := h2.length_le
  exact h1.eq_of_length (by simp only [List.length_singleton] at ha hb ⊢; omega)

/-- If cell `k` enters and leaves the `eliminate` scan holding exactly the
digit `d`, then the scan has removed `d` from every peer of `k`. -/
theorem eliminate_clears_peers (v : Values) (k : Nat) (d : Char)
    (hk : k < v.length) (hvk : v.getD k [] = [d]) (hwk : (eliminate v).getD k [] = [d]) :
    ∀ p ∈ peers k, d ∉ (eliminate v).getD p [] := by
  intro p hp
  have hsplit : List.range v.length = (List.range k ++ [k]) ++
      (List.range (v.length - (k + 1))).map (fun x => (k + 1) + x) := by
    rw [← List.range_succ, ← List.range_add]
    congr 1
    omega
  set u := (List.range k).foldl eliminateStep v with hu
  have he : eliminate v = ((List.range (v.length - (k + 1))).map
      (fun x => (k + 1) + x)).foldl eliminateStep (eliminateStep u k) := by
    rw [eliminate, hsplit, List.foldl_append, List.foldl_append]
    rfl
  have s0 : Narrows v u := foldl_eliminateStep_narrows v (List.range k)
  have s1 : Narrows u (eliminateStep u k) := eliminateStep_narrows u k
  have s2 : Narrows (eliminateStep u k) (eliminate v) := by
    have := foldl_eliminateStep_narrows (eliminateStep u k)
      ((List.range (v.length - (k + 1))).map (fun x => (k + 1) + x))
    rwa [← he] at this
  have huk : u.getD k [] = [d] := by
    have ha : (u.getD k []).Sublist [d] := by
      have := s0.2 k
      rwa [hvk] at this
    have hb : List.Sublist [d] (u.getD k []) := by
      have h1 := s1.2 k
      have h2 := s2.2 k
      rw [hwk] at h2
      exact h2.trans h1
    exact sublist_singleton_eq ha hb
  have hstep : eliminateStep u k = (peers k).foldl (clearDigit d) u := by
    unfold eliminateStep
    rw [huk]
  have hmid : d ∉ (eliminateStep u k).getD p [] := by
    rw [hstep]
    exact clearFold_not_mem d (peers k) u p hp
  exact not_mem_of_narrows s2 hmid

/-- `eliminate` is idempotent provided its first application solved no new
cell (spec: a second call with no new fixed cells is a no-op). -/
theorem eliminate_idem_of_no_new_singles (v : Values)
    (h : ∀ i, i < v.length → ((v.getD i []).length = 1 ↔ ((eliminate v).getD i []).length = 1)) :
    eliminate (eliminate v) = eliminate v := by
  have hlen : (eliminate v).length = v.length := (eliminate_narrows v).1
  nth_rewrite 1 [eliminate]
  rw [hlen]
  apply foldl_fixed
  intro k hk
  have hklt : k < v.length := List.mem_range.mp hk
  rcases hsh : (eliminate v).getD k [] with _ | ⟨d, tl⟩
  · unfold eliminateStep
    rw [hsh]
  · rcases tl with _ | ⟨e, tl2⟩
    · -- a solved cell of the output: its digit is already absent from peers
      have hv1 : (v.getD k []).length = 1 := by
        apply (h k hklt).mpr
        rw [hsh]
        rfl
      have hvk : v.getD k [] = [d] := by
        rcases hvs : v.getD k [] with _ | ⟨e, tl3⟩
        · rw [hvs] at hv1; simp at hv1
        · rcases tl3 with _ | _
          · have := (eliminate_narrows v).2 k
            rw [hsh, hvs] at this
            have hd : d ∈ [e] := this.subset (List.mem_singleton_self d)
            rw [List.mem_singleton.mp hd]
          · rw [hvs] at hv1; simp at hv1
      have hclear := eliminate_clears_peers v k d hklt hvk hsh
      unfold eliminateStep
      rw [hsh]
      apply foldl_fixed
      intro p hp
      rw [clearDigit, removeDigit_eq_self (hclear p hp), set_getD_self]
    · unfold eliminateStep
      rw [hsh]

end Sudoku

namespace Sudoku

/-! ### What the branch-selection scan computes -/

/-- Invariant of the linear scan of `search` after the first `n` cells:
the first component counts the solved cells seen, and `min_box` (when set)
is the first unsolved cell among the first `n` whose candidate count equals
the running minimum `min_length`. -/
def ScanInv (r : Values) (n : Nat) (st : Nat × Nat × Option Nat) : Prop :=
  st.1 = (List.range n).countP (fun k => decide ((r.getD k []).length = 1)) ∧
  st.2.1 ≤ 10 ∧
  ((st.2.2 = none ∧ st.2.1 = 10 ∧
      ∀ i, i < n → (r.getD i []).length ≠ 1 → 10 ≤ (r.getD i []).length) ∨
   (∃ b, st.2.2 = some b ∧ b < n ∧ (r.getD b []).length ≠ 1 ∧
      (r.getD b []).length = st.2.1 ∧ st.2.1 < 10 ∧
      (∀ i, i < n → (r.getD i []).length ≠ 1 → st.2.1 ≤ (r.getD i []).length) ∧
      (∀ i, i < b → (r.getD i []).length ≠ 1 → st.2.1 < (r.getD i []).length)))

theorem scanInv_holds (r : Values) :
    ∀ n, ScanInv r n ((List.range n).foldl (scanStep r) (0, 10, none)) := by
  intro n
  induction n with
  | zero =>
    rw [List.range_zero, List.foldl_nil]
    exact ⟨rfl, by norm_num, Or.inl ⟨rfl, rfl, fun i hi => absurd hi (by omega)⟩⟩
  | succ n ih =>
    rw [List.range_succ, List.foldl_append]
    obtain ⟨h1, h10, hcase⟩ := ih
    simp only [List.foldl_cons, List.foldl_nil]
    set st := (List.range n).foldl (scanStep r) (0, 10, none) with hst
    clear_value st
    have hcount : (List.range (n + 1)).countP (fun k => decide ((r.getD k []).length = 1)) =
        (List.range n).countP (fun k => decide ((r.getD k []).length = 1)) +
          (if (r.getD n []).length = 1 then 1 else 0) := by
      rw [List.range_succ, List.countP_append, List.countP_cons, List.countP_nil]
      simp only [Nat.zero_add, decide_eq_true_eq]
    by_cases hL1 : (r.getD n []).length = 1
    · rw [scanStep, if_pos hL1]
      simp only [ScanInv]
      refine ⟨by rw [hcount, if_pos hL1, h1], h10, ?_⟩
      rcases hcase with ⟨hnone, hmin, hall⟩ | ⟨b, hsome, hbn, hbu, hbl, hlt, hall, htie⟩
      · refine Or.inl ⟨hnone, hmin, fun i hi hu => ?_⟩
        rcases Nat.lt_succ_iff_lt_or_eq.mp hi with hi | rfl
        · exact hall i hi hu
        · exact absurd hL1 hu
      · refine Or.inr ⟨b, hsome, by omega, hbu, hbl, hlt, fun i hi hu => ?_, htie⟩
        rcases Nat.lt_succ_iff_lt_or_eq.mp hi with hi | rfl
        · exact hall i hi hu
        · exact absurd hL1 hu
    · rw [scanStep, if_neg hL1]
      by_cases hless : (r.getD n []).length < st.2.1
      · rw [if_pos hless]
        simp only [ScanInv]
        refine ⟨by rw [hcount, if_neg hL1, h1]; omega, by omega, ?_⟩
        refine Or.inr ⟨n, rfl, by omega, hL1, rfl, by omega, ?_, ?_⟩
        · intro i hi hu
          rcases Nat.lt_succ_iff_lt_or_eq.mp hi with hi | rfl
          · rcases hcase with ⟨hnone, hmin, hall⟩ | ⟨b, hsome, hbn, hbu, hbl, hlt, hall, htie⟩
            · have := hall i hi hu; omega
            · have := hall i hi hu; omega
          · omega
        · intro i hi hu
          rcases hcase with ⟨hnone, hmin, hall⟩ | ⟨b, hsome, hbn, hbu, hbl, hlt, hall, htie⟩
          · have := hall i hi hu; omega
          · have := hall i hi hu; omega
      · rw [if_neg hless]
        simp only [ScanInv]
        refine ⟨by rw [hcount, if_neg hL1, h1]; omega, h10, ?_⟩
        rcases hcase with ⟨hnone, hmin, hall⟩ | ⟨b, hsome, hbn, hbu, hbl, hlt, hall, htie⟩
        · refine Or.inl ⟨hnone, hmin, fun i hi hu => ?_⟩
          rcases Nat.lt_succ_iff_lt_or_eq.mp hi with hi | rfl
          · exact hall i hi hu
          · omega
        · refine Or.inr ⟨b, hsome, by omega, hbu, hbl, hlt, fun i hi hu => ?_, htie⟩
          rcases Nat.lt_succ_iff_lt_or_eq.mp hi with hi | rfl
          · exact hall i hi hu
          · omega

theorem branchScan_inv (r : Values) : ScanInv r r.length (branchScan r) :=
  scanInv_holds r r.length

theorem branchScan_solved (r : Values) : (branchScan r).1 = solvedCount r := by
  rw [(branchScan_inv r).1, solvedCount]
  exact countP_range_getD (fun s => decide (s.length = 1)) [] r

end Sudoku

namespace Sudoku

/-! ### The search driver -/

theorem tryChoices_nil (go : Values → Option Values) (r : Values) (b : Nat) :
    tryChoices go r b [] = none := rfl

theorem tryChoices_cons (go : Values → Option Values) (r : Values) (b : Nat)
    (c : Char) (rest : List Char) :
    tryChoices go r b (c :: rest) =
      match go (r.set b [c]) with
      | some sol => some sol
      | none => tryChoices go r b rest := rfl

theorem tryChoices_some (go : Values → Option Values) (r : Values) (b : Nat) :
    ∀ (cs : List Char) (w : Values), tryChoices go r b cs = some w →
      ∃ c ∈ cs, go (r.set b [c]) = some w := by
  intro cs
  induction cs with
  | nil =>
    intro w h
    rw [tryChoices_nil] at h
    cases h
  | cons c rest ih =>
    intro w h
    cases hgo : go (r.set b [c]) with
    | none =>
      rw [tryChoices_cons, hgo] at h
      obtain ⟨c2, hc2, hgo2⟩ := ih w h
      exact ⟨c2, List.mem_cons_of_mem c hc2, hgo2⟩
    | some sol =>
      rw [tryChoices_cons, hgo] at h
      exact ⟨c, List.mem_cons_self c rest, hgo.trans h⟩

theorem searchLoop_zero (v : Values) : searchLoop 0 v = none := rfl

theorem searchLoop_succ (f : Nat) (v : Values) :
    searchLoop (f + 1) v = searchBody (searchLoop f) v := rfl

theorem searchBody_none (go : Values → Option Values) (v : Values)
    (h : reduce_puzzle v = none) : searchBody go v = none := by
  unfold searchBody
  rw [h]

theorem searchBody_solved (go : Values → Option Values) (v r : Values)
    (h : reduce_puzzle v = some r) (h81 : (branchScan r).1 = 81) :
    searchBody go v = some r := by
  unfold searchBody
  rw [h]
  exact if_pos h81

theorem searchBody_nobox (go : Values → Option Values) (v r : Values)
    (h : reduce_puzzle v = some r) (h81 : (branchScan r).1 ≠ 81)
    (hb : (branchScan r).2.2 = none) : searchBody go v = none := by
  unfold searchBody
  rw [h]
  refine (if_neg h81).trans ?_
  rw [hb]

theorem searchBody_branch (go : Values → Option Values) (v r : Values) (b : Nat)
    (h : reduce_puzzle v = some r) (h81 : (branchScan r).1 ≠ 81)
    (hb : (branchScan r).2.2 = some b) :
    searchBody go v = tryChoices go r b (r.getD b []) := by
  unfold searchBody
  rw [h]
  refine (if_neg h81).trans ?_
  rw [hb]

/-- Any success of the search came out of a `reduce_puzzle` call whose
result passed the 81-solved-cells check, and search preserves cell count
and well-formedness. -/
theorem searchLoop_some (f : Nat) :
    ∀ (v w : Values), searchLoop f v = some w → ValuesOk v →
      w.length = v.length ∧ ValuesOk w ∧
        ∃ u, reduce_puzzle u = some w ∧ (branchScan w).1 = 81 := by
  induction f with
  | zero =>
    intro v w h _
    rw [searchLoop_zero] at h
    exact Option.noConfusion h
  | succ f ih =>
    intro v w h hok
    rw [searchLoop_succ] at h
    cases hr : reduce_puzzle v with
    | none =>
      rw [searchBody_none _ _ hr] at h
      exact Option.noConfusion h
    | some r =>
      obtain ⟨hre, hrn, hru⟩ := reduce_puzzle_some_spec hr
      have hrlen : r.length = v.length := hrn.1
      have hrok : ValuesOk r := valuesOk_of_narrows hrn hok
      by_cases h81 : (branchScan r).1 = 81
      · rw [searchBody_solved _ _ _ hr h81] at h
        have hw : r = w := Option.some.inj h
        subst hw
        exact ⟨hrlen, hrok, v, hr, h81⟩
      · cases hb : (branchScan r).2.2 with
        | none =>
          rw [searchBody_nobox _ _ _ hr h81 hb] at h
          exact Option.noConfusion h
        | some b =>
          rw [searchBody_branch _ _ _ b hr h81 hb] at h
          obtain ⟨c, hc, hgo⟩ := tryChoices_some _ r b _ w h
          have hcd : List.Sublist [c] (r.getD b []) := List.singleton_sublist.mpr hc
          have hn2 : Narrows r (r.set b [c]) := narrows_set_shrink hcd
          have hok2 : ValuesOk (r.set b [c]) := valuesOk_of_narrows hn2 hrok
          obtain ⟨hl, hwok, hu⟩ := ih (r.set b [c]) w hgo hok2
          refine ⟨?_, hwok, hu⟩
          rw [hl, List.length_set, hrlen]

end Sudoku

namespace Sudoku

/-! ### A success state is fully solved and satisfies every unit -/

theorem all_singleton_of_counts {w : Values} (hlen : w.length = 81)
    (hsolved : solvedCount w = 81) : ∀ i, i < 81 → (w.getD i []).length = 1 := by
  have hall : ∀ s ∈ w, (decide (s.length = 1)) = true := by
    apply List.countP_eq_length.mp
    rw [← solvedCount, hsolved, hlen]
  intro i hi
  have := hall _ (getD_mem w i [] (by omega))
  simpa using this

/-- No two distinct cells of a unit hold the same digit in an assignment
returned by `reduce_puzzle` with all 81 cells solved: had there been a
duplicated pair, the final `eliminate` scan would have emptied one of the
two cells and the reducer would have returned `False` instead. -/
theorem success_no_unit_duplicates {v w : Values} (hr : reduce_puzzle v = some w)
    (hlen : w.length = 81) (hsolved : solvedCount w = 81) :
    ∀ u0 ∈ unitlist, ∀ a ∈ u0, ∀ b ∈ u0, a ≠ b → w.getD a [] ≠ w.getD b [] := by
  intro u0 hu0 a ha b hb hab heq
  obtain ⟨hemp, hnvw, u, hwu, hsc⟩ := reduce_puzzle_some_spec hr
  rw [reducePass] at hwu
  have hulen : u.length = 81 := by
    have h1 := (reducePass_narrows u).1
    rw [reducePass] at h1
    rw [← hwu] at h1
    omega
  have husolved : ∀ i, i < 81 → (u.getD i []).length = 1 := by
    apply all_singleton_of_counts hulen
    rw [hsc, hsolved]
  obtain ⟨_, _, hub⟩ := unitlist_ok u0 hu0
  have ha81 : a < 81 := hub a ha
  have hb81 : b < 81 := hub b hb
  have hA : ∀ i, List.Sublist (w.getD i []) ((eliminate u).getD i []) := by
    intro i
    have := (only_choice_narrows (eliminate u)).2 i
    rwa [← hwu] at this
  have hB : ∀ i, List.Sublist ((eliminate u).getD i []) (u.getD i []) :=
    fun i => (eliminate_narrows u).2 i
  have hw1 : ∀ i, i < 81 → (w.getD i []).length = 1 := all_singleton_of_counts hlen hsolved
  obtain ⟨d, hd⟩ := List.length_eq_one.mp (hw1 a ha81)
  have hwa_ua : w.getD a [] = u.getD a [] := by
    apply ((hA a).trans (hB a)).eq_of_length
    rw [hw1 a ha81, husolved a ha81]
  have hua : u.getD a [] = [d] := by rw [← hwa_ua, hd]
  have helim_a : (eliminate u).getD a [] = [d] := by
    apply sublist_singleton_eq
    · rw [← hua]
      exact hB a
    · rw [← hd]
      exact hA a
  have hclear := eliminate_clears_peers u a d (by rw [hulen]; exact ha81) hua helim_a
  have hbpeer : b ∈ peers a := mem_peers_of_shared_unit hu0 ha hb (Ne.symm hab)
  have hdb : d ∈ (eliminate u).getD b [] := by
    apply (hA b).subset
    rw [← heq, hd]
    exact List.mem_singleton_self d
  exact hclear b hbpeer hdb

theorem countP_eq_one_of_nodup_mem {α : Type} [DecidableEq α] {l : List α} {a : α}
    (hnodup : l.Nodup) (hmem : a ∈ l) : l.countP (fun x => decide (x = a)) = 1 := by
  induction l with
  | nil => cases hmem
  | cons b l ih =>
    rw [List.countP_cons]
    rcases List.mem_cons.mp hmem with rfl | hmem2
    · have hnotin : a ∉ l := (List.nodup_cons.mp hnodup).1
      have hz : l.countP (fun x => decide (x = a)) = 0 := by
        rw [List.countP_eq_zero]
        intro x hx
        simp only [decide_eq_true_eq]
        rintro rfl
        exact hnotin hx
      rw [hz]
      simp
    · have hba : ¬ (b = a) := by
        rintro rfl
        exact (List.nodup_cons.mp hnodup).1 hmem2
      rw [ih (List.nodup_cons.mp hnodup).2 hmem2]
      simp [hba]

/-- A fully solved, well-formed, duplicate-free assignment has every digit
exactly once in every unit. -/
theorem unit_counts {w : Values} (hok : ValuesOk w) (hlen : w.length = 81)
    (hsing : ∀ i, i < 81 → (w.getD i []).length = 1)
    (hnodup : ∀ u0 ∈ unitlist, ∀ a ∈ u0, ∀ b ∈ u0, a ≠ b → w.getD a [] ≠ w.getD b []) :
    ∀ u0 ∈ unitlist, UnitSolvedOk w u0 := by
  intro u0 hu0 d hd
  obtain ⟨hu9, hunodup, hub⟩ := unitlist_ok u0 hu0
  have hdsnodup : (u0.map (fun c => w.getD c [])).Nodup := by
    apply List.Nodup.map_on ?_ hunodup
    intro x hx y hy hxy
    by_contra hne
    exact hnodup u0 hu0 x hx y hy hne hxy
  have hsubset : (u0.map (fun c => w.getD c [])) ⊆ digits.map (fun e => [e]) := by
    intro s hs
    obtain ⟨c, hc, rfl⟩ := List.mem_map.mp hs
    have hc81 : c < 81 := hub c hc
    obtain ⟨e, he⟩ := List.length_eq_one.mp (hsing c hc81)
    rw [he]
    apply List.mem_map.mpr
    refine ⟨e, ?_, rfl⟩
    have hcell := hok (w.getD c []) (getD_mem w c [] (by rw [hlen]; exact hc81))
    apply hcell.2
    rw [he]
    exact List.mem_singleton_self e
  have hperm : (u0.map (fun c => w.getD c [])).Perm (digits.map (fun e => [e])) := by
    apply List.Subperm.perm_of_length_le (List.subperm_of_subset hdsnodup hsubset)
    rw [List.length_map, List.length_map, hu9]
    exact Nat.le_refl 9
  have hmem : [d] ∈ u0.map (fun c => w.getD c []) :=
    hperm.mem_iff.mpr (List.mem_map.mpr ⟨d, hd, rfl⟩)
  exact countP_eq_one_of_nodup_mem hdsnodup hmem

end Sudoku

namespace Sudoku

/-! ### Solved valid assignments are fixed points of the strategies -/

theorem two_cells_contradict {w : Values} {u0 : List Nat} {a b : Nat} {d : Char}
    (hu : UnitSolvedOk w u0) (hd : d ∈ digits)
    (ha : a ∈ u0) (hb : b ∈ u0) (hab : a ≠ b)
    (hva : w.getD a [] = [d]) (hvb : w.getD b [] = [d]) : False := by
  have h1 := hu d hd
  have h2 : 2 ≤ (u0.map (fun c => w.getD c [])).countP (fun s => decide (s = [d])) := by
    rw [List.countP_map, List.countP_eq_length_filter]
    have hsub : List.Subperm [a, b]
        (u0.filter ((fun s => decide (s = [d])) ∘ fun c => w.getD c [])) := by
      apply List.subperm_of_subset
      · exact List.nodup_cons.mpr ⟨by simpa using hab, List.nodup_singleton b⟩
      · intro x hx
        rcases List.mem_cons.mp hx with rfl | hx2
        · exact List.mem_filter.mpr ⟨ha, by simpa using hva⟩
        · rw [List.mem_singleton.mp hx2]
          exact List.mem_filter.mpr ⟨hb, by simpa using hvb⟩
    have := hsub.length_le
    simpa using this
  omega

theorem eliminate_fixed_of_solved_valid {v : Values} (hok : ValuesOk v)
    (hlen : v.length = 81) (hsing : ∀ i, i < 81 → (v.getD i []).length = 1)
    (hvalid : ∀ u0 ∈ unitlist, UnitSolvedOk v u0) :
    eliminate v = v := by
  rw [eliminate]
  apply foldl_fixed
  intro k hk
  have hk81 : k < 81 := by
    have := List.mem_range.mp hk
    omega
  obtain ⟨d, hd⟩ := List.length_eq_one.mp (hsing k hk81)
  have hddig : d ∈ digits := by
    have hcell := hok (v.getD k []) (getD_mem v k [] (by omega))
    apply hcell.2
    rw [hd]
    exact List.mem_singleton_self d
  unfold eliminateStep
  rw [hd]
  apply foldl_fixed
  intro p hp
  obtain ⟨hpk, u0, hu0, hku, hpu⟩ := (mem_peers_iff p k).mp hp
  have hp81 : p < 81 := (unitlist_ok u0 hu0).2.2 p hpu
  obtain ⟨e, he⟩ := List.length_eq_one.mp (hsing p hp81)
  have hne : d ∉ v.getD p [] := by
    rw [he]
    simp only [List.mem_singleton]
    rintro rfl
    exact two_cells_contradict (hvalid u0 hu0) hddig hku hpu
      (Ne.symm hpk) hd he
  rw [clearDigit, removeDigit_eq_self hne, set_getD_self]

theorem only_choice_fixed_of_solved {v : Values}
    (hsing : ∀ i, i < 81 → (v.getD i []).length = 1) :
    only_choice v = v := by
  rw [only_choice]
  apply foldl_fixed
  intro u0 hu0
  apply foldl_fixed
  intro d _
  unfold onlyChoiceStep
  rcases hf : u0.filter (fun b => decide (d ∈ v.getD b [])) with _ | ⟨b, tl⟩
  · rfl
  · rcases tl with _ | ⟨c, tl2⟩
    · show List.set v b [d] = v
      have hbmem : b ∈ u0.filter (fun b => decide (d ∈ v.getD b [])) := by
        rw [hf]
        exact List.mem_singleton_self b
      have hb0 : b ∈ u0 := (List.mem_filter.mp hbmem).1
      have hbd : d ∈ v.getD b [] := by
        have := (List.mem_filter.mp hbmem).2
        simpa using this
      have hb81 : b < 81 := (unitlist_ok u0 hu0).2.2 b hb0
      obtain ⟨e, he⟩ := List.length_eq_one.mp (hsing b hb81)
      have hde : v.getD b [] = [d] := by
        rw [he] at hbd ⊢
        rw [List.mem_singleton.mp hbd]
      rw [← hde, set_getD_self]
    · rfl

theorem emptyCount_zero_of_solved {v : Values} (hlen : v.length = 81)
    (hsing : ∀ i, i < 81 → (v.getD i []).length = 1) : emptyCount v = 0 := by
  rw [emptyCount_eq_zero_iff]
  intro i hi heq
  have := hsing i (by omega)
  rw [heq] at this
  simp at this

theorem solvedCount_of_solved {v : Values} (hlen : v.length = 81)
    (hsing : ∀ i, i < 81 → (v.getD i []).length = 1) : solvedCount v = 81 := by
  rw [solvedCount, List.countP_eq_length.mpr, hlen]
  intro s hs
  obtain ⟨i, hi, rfl⟩ := mem_getD v s [] hs
  simpa using hsing i (by omega)

theorem reduce_puzzle_fixed {v : Values} (hok : ValuesOk v) (hlen : v.length = 81)
    (hsing : ∀ i, i < 81 → (v.getD i []).length = 1)
    (hvalid : ∀ u0 ∈ unitlist, UnitSolvedOk v u0) :
    reduce_puzzle v = some v := by
  have hpass : reducePass v = v := by
    rw [reducePass, eliminate_fixed_of_solved_valid hok hlen hsing hvalid,
      only_choice_fixed_of_solved hsing]
  rw [reduce_puzzle, hlen, reduceLoop_succ, hpass]
  rw [if_neg (by simp [emptyCount_zero_of_solved hlen hsing]), if_pos rfl]

theorem search_fixed {v : Values} (hok : ValuesOk v) (hlen : v.length = 81)
    (hsing : ∀ i, i < 81 → (v.getD i []).length = 1)
    (hvalid : ∀ u0 ∈ unitlist, UnitSolvedOk v u0) :
    search v = some v := by
  have hred : reduce_puzzle v = some v := reduce_puzzle_fixed hok hlen hsing hvalid
  have hscan : (branchScan v).1 = 81 := by
    rw [branchScan_solved, solvedCount_of_solved hlen hsing]
  rw [search, show (82 : Nat) = 81 + 1 from rfl, searchLoop_succ,
    searchBody_solved _ _ _ hred hscan]

end Sudoku

namespace Sudoku

/-! ### What processing one twin pair does -/

theorem ddFold_getD_ne (dd : List Char) (c i : Nat) (hci : c ≠ i) :
    ∀ (x : Values),
      ((dd.foldl (fun w3 d => w3.set c (removeDigit (w3.getD c []) d)) x)).getD i [] =
        x.getD i [] := by
  induction dd with
  | nil => intro x; rfl
  | cons d dd ih =>
    intro x
    rw [List.foldl_cons, ih]
    exact getD_set_ne _ c i _ [] hci

theorem ddFold_narrows (dd : List Char) (c : Nat) (x : Values) :
    Narrows x (dd.foldl (fun w3 d => w3.set c (removeDigit (w3.getD c []) d)) x) :=
  foldl_inv (Narrows x) _ dd x (Narrows.refl x)
    (fun _ d _ hy => hy.trans (narrows_set_shrink (removeDigit_sublist _ d)))

theorem ddFold_clears (c : Nat) :
    ∀ (dd : List Char) (x : Values), ∀ d ∈ dd,
      d ∉ ((dd.foldl (fun w3 d2 => w3.set c (removeDigit (w3.getD c []) d2)) x)).getD c [] := by
  intro dd
  induction dd with
  | nil => intro x d hd; cases hd
  | cons d0 dd ih =>
    intro x d hd
    rw [List.foldl_cons]
    rcases List.mem_cons.mp hd with rfl | hd2
    · exact not_mem_of_narrows (ddFold_narrows dd c _) (clearDigit_not_mem d x c)
    · exact ih _ d hd2

theorem pairFold_narrows (dd : List Char) (L : List Nat) (x : Values) :
    Narrows x (L.foldl
      (fun w2 c => dd.foldl (fun w3 d => w3.set c (removeDigit (w3.getD c []) d)) w2) x) :=
  foldl_inv (Narrows x) _ L x (Narrows.refl x)
    (fun y c _ hy => hy.trans (ddFold_narrows dd c y))

theorem pairFold_untouched (dd : List Char) (i : Nat) :
    ∀ (L : List Nat) (x : Values), i ∉ L →
      ((L.foldl
        (fun w2 c => dd.foldl (fun w3 d => w3.set c (removeDigit (w3.getD c []) d)) w2)
          x)).getD i [] = x.getD i [] := by
  intro L
  induction L with
  | nil => intro x _; rfl
  | cons c L ih =>
    intro x hi
    rw [List.foldl_cons, ih _ (fun h => hi (List.mem_cons_of_mem c h))]
    exact ddFold_getD_ne dd c i (fun h => hi (h ▸ List.mem_cons_self c L)) x

theorem pairFold_clears (dd : List Char) :
    ∀ (L : List Nat) (x : Values) (c : Nat), c ∈ L → ∀ d ∈ dd,
      d ∉ ((L.foldl
        (fun w2 c2 => dd.foldl (fun w3 d2 => w3.set c2 (removeDigit (w3.getD c2 []) d2)) w2)
          x)).getD c [] := by
  intro L
  induction L with
  | nil => intro x c hc; cases hc
  | cons c0 L ih =>
    intro x c hc d hd
    rw [List.foldl_cons]
    rcases List.mem_cons.mp hc with rfl | hc2
    · exact not_mem_of_narrows (pairFold_narrows dd L _) (ddFold_clears c dd x d hd)
    · exact ih _ c hc2 d hd

/-- Processing one naked-twin pair never touches the two twin cells and
removes both twin digits from every other cell of the unit. -/
theorem processPair_spec (w : Values) (u : List Nat) (b1 b2 : Nat) (dd : List Char) :
    (processPair w u b1 b2 dd).getD b1 [] = w.getD b1 [] ∧
    (processPair w u b1 b2 dd).getD b2 [] = w.getD b2 [] ∧
    ∀ c ∈ u, c ≠ b1 → c ≠ b2 → ∀ d ∈ dd, d ∉ (processPair w u b1 b2 dd).getD c [] := by
  refine ⟨?_, ?_, ?_⟩
  · rw [processPair]
    apply pairFold_untouched
    intro hmem
    have := (List.mem_filter.mp hmem).2
    simp at this
  · rw [processPair]
    apply pairFold_untouched
    intro hmem
    have := (List.mem_filter.mp hmem).2
    simp at this
  · intro c hc hc1 hc2 d hd
    rw [processPair]
    apply pairFold_clears dd _ w c ?_ d hd
    apply List.mem_filter.mpr
    refine ⟨hc, ?_⟩
    simp only [decide_eq_true_eq]
    exact ⟨hc1, hc2⟩

end Sudoku

namespace Sudoku

/-! ### Concrete fixed points usable without deep evaluation -/

/-- The all-blank assignment: every cell still admits all nine digits. -/
def blankV : Values := List.replicate 81 digits

theorem blankV_length : blankV.length = 81 := List.length_replicate 81 digits

theorem getD_replicate {α : Type} (a d : α) :
    ∀ (n i : Nat), i < n → (List.replicate n a).getD i d = a
  | 0, _, h => absurd h (by omega)
  | _ + 1, 0, _ => rfl
  | n + 1, i + 1, h => by
    have hrec := getD_replicate a d n i (Nat.lt_of_succ_lt_succ h)
    simpa [List.replicate_succ] using hrec

theorem blankV_getD {i : Nat} (hi : i < 81) : blankV.getD i [] = digits :=
  getD_replicate digits [] 81 i hi

theorem eliminate_blank : eliminate blankV = blankV := by
  rw [eliminate]
  apply foldl_fixed
  intro k hk
  have hk81 : k < 81 := by
    have := List.mem_range.mp hk
    rwa [blankV_length] at this
  unfold eliminateStep
  rw [blankV_getD hk81]
  rfl

theorem only_choice_blank : only_choice blankV = blankV := by
  rw [only_choice]
  apply foldl_fixed
  intro u0 hu0
  apply foldl_fixed
  intro d hd
  unfold onlyChoiceStep
  have hfilter : u0.filter (fun b => decide (d ∈ blankV.getD b [])) = u0 := by
    apply List.filter_eq_self.mpr
    intro b hb
    have hb81 : b < 81 := (unitlist_ok u0 hu0).2.2 b hb
    simp only [decide_eq_true_eq]
    rw [blankV_getD hb81]
    exact hd
  obtain ⟨hu9, -, -⟩ := unitlist_ok u0 hu0
  rcases u0 with _ | ⟨x1, u1⟩
  · simp at hu9
  · rcases u1 with _ | ⟨x2, u2⟩
    · simp at hu9
    · rw [hfilter]

theorem reducePass_blank : reducePass blankV = blankV := by
  rw [reducePass, eliminate_blank, only_choice_blank]

theorem reduce_puzzle_blank : reduce_puzzle blankV = some blankV := by
  rw [reduce_puzzle, blankV_length, reduceLoop_succ, reducePass_blank]
  rw [if_neg (by decide), if_pos rfl]

theorem reducePass_nil : reducePass ([] : Values) = [] := by
  apply List.length_eq_zero.mp
  rw [(reducePass_narrows []).1]
  rfl

theorem reduce_puzzle_nil : reduce_puzzle ([] : Values) = some [] := by
  rw [reduce_puzzle, show ([] : Values).length + 1 = 0 + 1 from rfl, reduceLoop_succ,
    reducePass_nil]
  rw [if_neg (by decide), if_pos rfl]

/-! ### Parsed solved grids are singleton assignments -/

theorem grid2values_singleton {g : String} (hchars : ∀ c ∈ g.data, c ∈ digits)
    {i : Nat} (hi : i < (grid2values g).length) :
    ((grid2values g).getD i []).length = 1 := by
  rw [List.getD_eq_getElem _ _ hi]
  have hid : i < g.data.length := by
    have := hi
    rwa [grid2values, List.length_map] at this
  have hmem : g.data[i] ∈ g.data := List.getElem_mem hid
  simp only [grid2values, List.getElem_map]
  rw [if_pos (hchars _ hmem)]
  rfl

/-- Feeding `solve` an already-solved valid grid returns its parse
unchanged: the first reduction pass fixes nothing and the scan reports all
81 cells solved. -/
theorem solve_fixed_of_valid {g : String} (hlen : g.length = 81)
    (hchars : ∀ c ∈ g.data, c ∈ digits)
    (hvalid : ∀ u0 ∈ unitlist, UnitSolvedOk (grid2values g) u0) :
    solve g = some (grid2values g) := by
  have hglen : (grid2values g).length = 81 := by rw [grid2values_length, hlen]
  have hsing : ∀ i, i < 81 → (((grid2values g).getD i []).length = 1) := by
    intro i hi
    exact grid2values_singleton hchars (by rw [hglen]; exact hi)
  rw [solve]
  exact search_fixed (valuesOk_grid2values g) hglen hsing hvalid

end Sudoku

namespace Sudoku

/-! ### First-success semantics of the branch loop -/

theorem tryChoices_iff (go : Values → Option Values) (r : Values) (b : Nat) :
    ∀ (cs : List Char) (w : Values), tryChoices go r b cs = some w ↔
      ∃ k, k < cs.length ∧ go (r.set b [cs.getD k ' ']) = some w ∧
        ∀ j, j < k → go (r.set b [cs.getD j ' ']) = none := by
  intro cs
  induction cs with
  | nil =>
    intro w
    constructor
    · intro h
      rw [tryChoices_nil] at h
      exact Option.noConfusion h
    · rintro ⟨k, hk, -⟩
      simp at hk
  | cons c rest ih =>
    intro w
    cases hgo : go (r.set b [c]) with
    | some sol =>
      rw [tryChoices_cons, hgo]
      constructor
      · intro h
        refine ⟨0, by simp, ?_, ?_⟩
        · rw [show (c :: rest).getD 0 ' ' = c from rfl, hgo]
          exact h
        · intro j hj
          omega
      · rintro ⟨k, hk, hks, hprev⟩
        cases k with
        | zero =>
          rw [show (c :: rest).getD 0 ' ' = c from rfl, hgo] at hks
          exact hks
        | succ k2 =>
          have h0 := hprev 0 (by omega)
          rw [show (c :: rest).getD 0 ' ' = c from rfl, hgo] at h0
          exact Option.noConfusion h0
    | none =>
      rw [tryChoices_cons, hgo]
      show tryChoices go r b rest = some w ↔ _
      rw [ih w]
      constructor
      · rintro ⟨k, hk, hks, hprev⟩
        refine ⟨k + 1, by simpa using hk, ?_, ?_⟩
        · rw [show (c :: rest).getD (k + 1) ' ' = rest.getD k ' ' from rfl]
          exact hks
        · intro j hj
          cases j with
          | zero =>
            rw [show (c :: rest).getD 0 ' ' = c from rfl]
            exact hgo
          | succ j2 =>
            rw [show (c :: rest).getD (j2 + 1) ' ' = rest.getD j2 ' ' from rfl]
            exact hprev j2 (by omega)
      · rintro ⟨k, hk, hks, hprev⟩
        cases k with
        | zero =>
          rw [show (c :: rest).getD 0 ' ' = c from rfl, hgo] at hks
          exact Option.noConfusion hks
        | succ k2 =>
          refine ⟨k2, by simpa using hk, ?_, ?_⟩
          · rw [show (c :: rest).getD (k2 + 1) ' ' = rest.getD k2 ' ' from rfl] at hks
            exact hks
          · intro j hj
            have hj1 := hprev (j + 1) (by omega)
            rw [show (c :: rest).getD (j + 1) ' ' = rest.getD j ' ' from rfl] at hj1
            exact hj1

end Sudoku

namespace Sudoku

/-! ### Claim theorems -/

/-- A concrete fully solved diagonal-Sudoku grid (a solution of the
canonical puzzle in solution.py line 238): all rows, columns, boxes and
both main diagonals contain each digit exactly once. -/
def solvedGrid : String :=
  "267945381853716249491823576576438192384192657129657438642379815935281764718564923"

/-- Claim C1: for every 81-character grid string, `solve` returns either
the failure value `False` (here `none`) or an assignment in which every
one of the 81 cells holds exactly one digit and every one of the 29 units
(9 rows, 9 columns, 9 boxes, 2 main diagonals) contains each digit 1-9
exactly once; a success is never partial or constraint-violating. -/
theorem solve_sound (g : String) (hlen : g.length = 81) (w : Values)
    (hs : solve g = some w) :
    unitlist.length = 29 ∧ (∀ i, i < 81 → (w.getD i []).length = 1) ∧
      ∀ u0 ∈ unitlist, UnitSolvedOk w u0 := by
  rw [solve] at hs
  have hok : ValuesOk (grid2values g) := valuesOk_grid2values g
  rw [search] at hs
  obtain ⟨hwlen, hwok, u, hru, hscan⟩ := searchLoop_some 82 (grid2values g) w hs hok
  have hwlen81 : w.length = 81 := by rw [hwlen, grid2values_length, hlen]
  have hsolved : solvedCount w = 81 := by
    rw [← branchScan_solved]
    exact hscan
  have hsing := all_singleton_of_counts hwlen81 hsolved
  have hnodup := success_no_unit_duplicates hru hwlen81 hsolved
  exact ⟨by decide, hsing, unit_counts hwok hwlen81 hsing hnodup⟩

theorem solve_sound_witness :
    (solvedGrid.length = 81 ∧ solve solvedGrid = some (grid2values solvedGrid)) ∧
    (unitlist.length = 29 ∧
      (∀ i, i < 81 → ((grid2values solvedGrid).getD i []).length = 1) ∧
      ∀ u0 ∈ unitlist, UnitSolvedOk (grid2values solvedGrid) u0) :=
  ⟨⟨by decide, solve_fixed_of_valid (by decide) (by decide) (by decide)⟩,
    solve_sound solvedGrid (by decide) (grid2values solvedGrid)
      (solve_fixed_of_valid (by decide) (by decide) (by decide))⟩

/-- Claim C3: `reduce_puzzle` terminates (its loop result is independent of
any fuel at least `length + 1`), the solved-cell count never decreases over
a pass that the loop continues from (no cell emptied), and the solved-cell
count of an 81-cell assignment is bounded by 81. -/
theorem reduce_puzzle_terminates :
    (∀ (v : Values) (m : Nat), v.length + 1 ≤ m → reduceLoop m v = reduce_puzzle v) ∧
    (∀ v : Values, emptyCount (reducePass v) = 0 →
      solvedCount v ≤ solvedCount (reducePass v)) ∧
    (∀ v : Values, v.length = 81 → solvedCount v ≤ 81) :=
  ⟨fun v m hm => reduceLoop_eq_reduce_puzzle v m hm,
   fun v h => solvedCount_mono_pass v h,
   fun v h => by rw [← h]; exact solvedCount_le_length v⟩

theorem reduce_puzzle_terminates_witness :
    (([] : Values).length + 1 ≤ 1 ∧ reduceLoop 1 ([] : Values) = reduce_puzzle []) ∧
    (emptyCount (reducePass ([] : Values)) = 0 ∧
      solvedCount ([] : Values) ≤ solvedCount (reducePass ([] : Values))) ∧
    (blankV.length = 81 ∧ solvedCount blankV ≤ 81) := by
  have hE : emptyCount (reducePass ([] : Values)) = 0 := by
    rw [reducePass_nil]
    rfl
  exact ⟨⟨by decide, reduce_puzzle_terminates.1 [] 1 (by decide)⟩,
    ⟨hE, reduce_puzzle_terminates.2.1 [] hE⟩,
    ⟨by decide, reduce_puzzle_terminates.2.2 blankV (by decide)⟩⟩

/-- Claim C4: `reduce_puzzle` applies Eliminate then Only-Choice until a
pass adds no newly solved cell, returning that stabilized pass result; a
non-failure return has no empty candidate set, and a pass that empties
some cell makes the loop return the failure value `False` (`none`). -/
theorem reduce_puzzle_contract :
    (∀ v w, reduce_puzzle v = some w →
      emptyCount w = 0 ∧ ∃ u, w = reducePass u ∧ solvedCount u = solvedCount w) ∧
    (∀ v, emptyCount (reducePass v) ≠ 0 → reduce_puzzle v = none) :=
  ⟨fun _ _ h =>
    ⟨(reduce_puzzle_some_spec h).1, (reduce_puzzle_some_spec h).2.2⟩,
   fun v h => reduce_puzzle_none_of_empty v h⟩

/-- Two cells of the same row both fixed to the digit 1: the first pass
empties the second cell. -/
def cexC4 : Values := [['1'], ['1']]

theorem cexC4_empty : emptyCount (reducePass cexC4) ≠ 0 := by
  have h1 : (eliminate cexC4).getD 1 [] = [] := by decide
  have h2 : (reducePass cexC4).getD 1 [] = [] := by
    have hs := (only_choice_narrows (eliminate cexC4)).2 1
    rw [h1] at hs
    rw [reducePass]
    exact List.sublist_nil.mp hs
  intro h0
  have hlen : (reducePass cexC4).length = cexC4.length := (reducePass_narrows cexC4).1
  exact (emptyCount_eq_zero_iff _).mp h0 1 (by rw [hlen]; decide) h2

theorem reduce_puzzle_contract_witness :
    ((reduce_puzzle ([] : Values) = some [] ∧
      emptyCount ([] : Values) = 0 ∧
        ∃ u, ([] : Values) = reducePass u ∧ solvedCount u = solvedCount ([] : Values))) ∧
    (emptyCount (reducePass cexC4) ≠ 0 ∧ reduce_puzzle cexC4 = none) :=
  ⟨⟨reduce_puzzle_nil, reduce_puzzle_contract.1 [] [] reduce_puzzle_nil⟩,
   ⟨cexC4_empty, reduce_puzzle_contract.2 cexC4 cexC4_empty⟩⟩

/-- Cell 0 holds 12, cell 1 (a row peer scanned later) holds 1: the first
`eliminate` scan turns cell 0 into the new singleton 2 only after cell 0
was already passed, so a second scan still removes 2 from the peers of
cell 0 and the two results differ. -/
def cexC5 : Values := [['1', '2'], ['1']] ++ List.replicate 79 digits

/-- Claim C5 counterexample: `eliminate` is not idempotent on every
assignment. -/
theorem eliminate_not_idempotent : eliminate (eliminate cexC5) ≠ eliminate cexC5 := by
  decide

/-- Claim C5 (amended): `eliminate` is idempotent on every assignment on
which its first application solves no new cell (and unsolves none), i.e.
whenever a cell is solved in `eliminate v` exactly when it is solved in
`v` - the spec's reading `a second call with no new fixed cells is a
no-op`. -/
theorem eliminate_idempotent_amended (v : Values)
    (h : ∀ i, i < v.length →
      ((v.getD i []).length = 1 ↔ ((eliminate v).getD i []).length = 1)) :
    eliminate (eliminate v) = eliminate v :=
  eliminate_idem_of_no_new_singles v h

theorem eliminate_idempotent_amended_witness :
    (∀ i, i < blankV.length →
      ((blankV.getD i []).length = 1 ↔ ((eliminate blankV).getD i []).length = 1)) ∧
    eliminate (eliminate blankV) = eliminate blankV := by
  have h : ∀ i, i < blankV.length →
      ((blankV.getD i []).length = 1 ↔ ((eliminate blankV).getD i []).length = 1) := by
    intro i hi
    rw [eliminate_blank]
  exact ⟨h, eliminate_idempotent_amended blankV h⟩

/-- Claim C9: each strategy only narrows the assignment: the cell set is
unchanged (same length) and every cell's candidate string in the result is
a subsequence of its candidate string in the input. -/
theorem strategies_narrow :
    (∀ v : Values, (eliminate v).length = v.length ∧
      ∀ i, ((eliminate v).getD i []).Sublist (v.getD i [])) ∧
    (∀ v : Values, (only_choice v).length = v.length ∧
      ∀ i, ((only_choice v).getD i []).Sublist (v.getD i [])) ∧
    (∀ v : Values, (naked_twins v).length = v.length ∧
      ∀ i, ((naked_twins v).getD i []).Sublist (v.getD i [])) :=
  ⟨fun v => ⟨(eliminate_narrows v).1, (eliminate_narrows v).2⟩,
   fun v => ⟨(only_choice_narrows v).1, (only_choice_narrows v).2⟩,
   fun v => ⟨(naked_twins_narrows v).1, (naked_twins_narrows v).2⟩⟩

end Sudoku

namespace Sudoku

/-- An assignment with one naked-twin pair (cells 0 and 1 of row A hold the
identical pair 12) and all other cells blank. -/
def twinPairV : Values := [['1', '2'], ['1', '2']] ++ List.replicate 79 digits

/-- Claim C2 (code bug): the implemented `search` never invokes
`naked_twins`.  One step of the search driver is exactly
reduce-scan-branch (`searchBody`, whose definition contains no naked-twins
application), although the docstring of `search` (solution.py lines
172-175) says the classroom code should be extended `to call the naked
twins strategy`, and the omission is observable because `naked_twins` is
not a no-op. -/
theorem search_ignores_naked_twins :
    (∀ (f : Nat) (v : Values), searchLoop (f + 1) v = searchBody (searchLoop f) v) ∧
    naked_twins twinPairV ≠ twinPairV :=
  ⟨fun f v => searchLoop_succ f v, by decide⟩

/-- Three cells of row A (also of box 1) all hold the pair 12. -/
def cexC6 : Values := [['1', '2'], ['1', '2'], ['1', '2']] ++ List.replicate 78 digits

/-- Claim C6 counterexample: cells 0 and 1 form a detected naked-twin pair
(identical two-candidate strings, both in a shared unit), yet
`naked_twins` changes cell 0's candidates: processing the overlapping
detected pairs (0,2) and (1,2) of the same unit removes digits from the
members of the pair (0,1). -/
theorem naked_twins_clears_twin_member :
    (cexC6.getD 0 []).length = 2 ∧ cexC6.getD 0 [] = cexC6.getD 1 [] ∧
    (∃ u ∈ unitlist, 0 ∈ u ∧ 1 ∈ u) ∧
    (naked_twins cexC6).getD 0 [] ≠ cexC6.getD 0 [] := by decide

/-- Claim C6 (amended): processing one detected twin pair removes both of
its digits from every other cell of the unit and leaves the two twin
cells themselves untouched; a twin cell may still lose digits when a
different overlapping detected pair of the same unit is processed. -/
theorem naked_twins_pair_processing (w : Values) (u : List Nat) (b1 b2 : Nat)
    (dd : List Char) (_hu : u ∈ unitlist) (_hb1 : b1 ∈ u) (_hb2 : b2 ∈ u)
    (_hne : b1 ≠ b2) (_hv1 : w.getD b1 [] = dd) (_hv2 : w.getD b2 [] = dd)
    (_hlen2 : dd.length = 2) :
    (processPair w u b1 b2 dd).getD b1 [] = w.getD b1 [] ∧
    (processPair w u b1 b2 dd).getD b2 [] = w.getD b2 [] ∧
    ∀ c ∈ u, c ≠ b1 → c ≠ b2 → ∀ d ∈ dd, d ∉ (processPair w u b1 b2 dd).getD c [] :=
  processPair_spec w u b1 b2 dd

theorem naked_twins_pair_processing_witness :
    (([0, 1, 2, 3, 4, 5, 6, 7, 8] : List Nat) ∈ unitlist ∧
      0 ∈ ([0, 1, 2, 3, 4, 5, 6, 7, 8] : List Nat) ∧
      1 ∈ ([0, 1, 2, 3, 4, 5, 6, 7, 8] : List Nat) ∧ (0 : Nat) ≠ 1 ∧
      twinPairV.getD 0 [] = ['1', '2'] ∧ twinPairV.getD 1 [] = ['1', '2'] ∧
      (['1', '2'] : List Char).length = 2) ∧
    ((processPair twinPairV [0, 1, 2, 3, 4, 5, 6, 7, 8] 0 1 ['1', '2']).getD 0 [] =
        twinPairV.getD 0 [] ∧
      (processPair twinPairV [0, 1, 2, 3, 4, 5, 6, 7, 8] 0 1 ['1', '2']).getD 1 [] =
        twinPairV.getD 1 [] ∧
      ∀ c ∈ ([0, 1, 2, 3, 4, 5, 6, 7, 8] : List Nat), c ≠ 0 → c ≠ 1 →
        ∀ d ∈ (['1', '2'] : List Char),
          d ∉ (processPair twinPairV [0, 1, 2, 3, 4, 5, 6, 7, 8] 0 1 ['1', '2']).getD c []) :=
  ⟨⟨by decide, by decide, by decide, by decide, by decide, by decide, by decide⟩,
    naked_twins_pair_processing twinPairV [0, 1, 2, 3, 4, 5, 6, 7, 8] 0 1 ['1', '2']
      (by decide) (by decide) (by decide) (by decide) (by decide) (by decide) (by decide)⟩

/-- Claim C7: when the search driver branches, the scan has selected an
unsolved cell of minimal candidate count (the first such cell in scan
order on ties), the search step is exactly the candidate loop over that
cell's candidate string in its stored order, and the loop returns the
first successful branch. -/
theorem search_branching_order :
    (∀ (v r : Values) (b : Nat), reduce_puzzle v = some r →
      (branchScan r).2.2 = some b →
      b < r.length ∧ (r.getD b []).length ≠ 1 ∧
      (∀ i, i < r.length → (r.getD i []).length ≠ 1 →
        (r.getD b []).length ≤ (r.getD i []).length) ∧
      (∀ i, i < b → (r.getD i []).length ≠ 1 →
        (r.getD b []).length < (r.getD i []).length)) ∧
    (∀ (f : Nat) (v r : Values) (b : Nat), reduce_puzzle v = some r →
      (branchScan r).1 ≠ 81 → (branchScan r).2.2 = some b →
      searchLoop (f + 1) v = tryChoices (searchLoop f) r b (r.getD b [])) ∧
    (∀ (go : Values → Option Values) (r : Values) (b : Nat) (cs : List Char) (w : Values),
      tryChoices go r b cs = some w ↔
        ∃ k, k < cs.length ∧ go (r.set b [cs.getD k ' ']) = some w ∧
          ∀ j, j < k → go (r.set b [cs.getD j ' ']) = none) := by
  refine ⟨?_, ?_, ?_⟩
  · intro v r b hr hb
    obtain ⟨h1, h10, hcase⟩ := branchScan_inv r
    rcases hcase with ⟨hnone, -, -⟩ | ⟨b2, hsome, hbn, hbu, hbl, hlt, hall, htie⟩
    · rw [hnone] at hb
      exact Option.noConfusion hb
    · rw [hsome] at hb
      have hbb : b2 = b := Option.some.inj hb
      subst hbb
      refine ⟨hbn, hbu, ?_, ?_⟩
      · intro i hi hu2
        rw [hbl]
        exact hall i hi hu2
      · intro i hi hu2
        rw [hbl]
        exact htie i hi hu2
  · intro f v r b hr h81 hb
    rw [searchLoop_succ, searchBody_branch _ _ _ b hr h81 hb]
  · intro go r b cs w
    exact tryChoices_iff go r b cs w

theorem search_branching_order_witness :
    (reduce_puzzle blankV = some blankV ∧ (branchScan blankV).2.2 = some 0 ∧
      (branchScan blankV).1 ≠ 81) ∧
    (0 < blankV.length ∧ (blankV.getD 0 []).length ≠ 1 ∧
      (∀ i, i < blankV.length → (blankV.getD i []).length ≠ 1 →
        (blankV.getD 0 []).length ≤ (blankV.getD i []).length) ∧
      (∀ i, i < 0 → (blankV.getD i []).length ≠ 1 →
        (blankV.getD 0 []).length < (blankV.getD i []).length)) ∧
    (searchLoop 1 blankV = tryChoices (searchLoop 0) blankV 0 (blankV.getD 0 [])) ∧
    (tryChoices (fun _ => none) ([] : Values) 0 [] = some [] ↔
      ∃ k, k < ([] : List Char).length ∧
        (fun _ => (none : Option Values))
          (([] : Values).set 0 [([] : List Char).getD k ' ']) = some [] ∧
        ∀ j, j < k → (fun _ => (none : Option Values))
          (([] : Values).set 0 [([] : List Char).getD j ' ']) = none) := by
  have hb : (branchScan blankV).2.2 = some 0 := by decide
  have h81 : (branchScan blankV).1 ≠ 81 := by decide
  exact ⟨⟨reduce_puzzle_blank, hb, h81⟩,
    search_branching_order.1 blankV blankV 0 reduce_puzzle_blank hb,
    search_branching_order.2.1 0 blankV blankV 0 reduce_puzzle_blank h81 hb,
    search_branching_order.2.2 (fun _ => none) [] 0 [] []⟩

/-- Claim C8: solving an already fully solved valid diagonal grid (all 81
characters given digits, every unit satisfied) returns that same
assignment unchanged. -/
theorem solve_roundtrip (g : String) (hlen : g.length = 81)
    (hchars : ∀ c ∈ g.data, c ∈ digits)
    (hvalid : ∀ u0 ∈ unitlist, UnitSolvedOk (grid2values g) u0) :
    solve g = some (grid2values g) :=
  solve_fixed_of_valid hlen hchars hvalid

theorem solve_roundtrip_witness :
    (solvedGrid.length = 81 ∧ (∀ c ∈ solvedGrid.data, c ∈ digits) ∧
      ∀ u0 ∈ unitlist, UnitSolvedOk (grid2values solvedGrid) u0) ∧
    solve solvedGrid = some (grid2values solvedGrid) :=
  ⟨⟨by decide, by decide, by decide⟩,
    solve_roundtrip solvedGrid (by decide) (by decide) (by decide)⟩

/-- Claim C10: whenever `reduce_puzzle` returns a non-failure well-formed
81-cell assignment in which fewer than 81 cells are solved, the branch
scan sets `min_box` to a cell with between 2 and 9 candidates, so the
subsequent candidate lookup `values[min_box]` is well-defined and the
selection is never left unset when the branching code runs. -/
theorem search_branch_selection_safe (v r : Values) (hok : ValuesOk v)
    (hlen : v.length = 81) (hr : reduce_puzzle v = some r)
    (hs : solvedCount r < 81) :
    ∃ b, (branchScan r).2.2 = some b ∧
      2 ≤ (r.getD b []).length ∧ (r.getD b []).length ≤ 9 := by
  obtain ⟨hemp, hn, -⟩ := reduce_puzzle_some_spec hr
  have hrlen : r.length = 81 := by rw [hn.1, hlen]
  have hrok : ValuesOk r := valuesOk_of_narrows hn hok
  have hex : ∃ i, i < r.length ∧ (r.getD i []).length ≠ 1 := by
    by_contra hno
    push_neg at hno
    have hall81 : solvedCount r = 81 := by
      rw [solvedCount, List.countP_eq_length.mpr, hrlen]
      intro s hsm
      obtain ⟨i, hi, rfl⟩ := mem_getD r s [] hsm
      simpa using hno i hi
    omega
  obtain ⟨i, hi, hiu⟩ := hex
  have hcell : CellOk (r.getD i []) := hrok _ (getD_mem r i [] hi)
  have hile : (r.getD i []).length ≤ 9 := by
    have := (List.subperm_of_subset hcell.1 (fun c hc => hcell.2 c hc)).length_le
    simpa using this
  obtain ⟨h1, h10, hcase⟩ := branchScan_inv r
  rcases hcase with ⟨hnone2, hmin, hall⟩ | ⟨b, hsome, hbn, hbu, hbl, hlt, hall, htie⟩
  · have := hall i hi hiu
    omega
  · refine ⟨b, hsome, ?_, ?_⟩
    · have hbne : r.getD b [] ≠ [] := (emptyCount_eq_zero_iff r).mp hemp b hbn
      have := List.length_pos.mpr hbne
      omega
    · have := hall i hi hiu
      omega

theorem search_branch_selection_safe_witness :
    (ValuesOk blankV ∧ blankV.length = 81 ∧ reduce_puzzle blankV = some blankV ∧
      solvedCount blankV < 81) ∧
    ∃ b, (branchScan blankV).2.2 = some b ∧
      2 ≤ (blankV.getD b []).length ∧ (blankV.getD b []).length ≤ 9 :=
  ⟨⟨by decide, by decide, reduce_puzzle_blank, by decide⟩,
    search_branch_selection_safe blankV blankV (by decide) (by decide)
      reduce_puzzle_blank (by decide)⟩

end Sudoku
